import Mathlib

/-! Verification development for the `grebe` paired-end UMI deduplicator.

Shallow embedding of the core of `grebe` (files `src/pair_handler.rs`,
`src/main.rs`, `src/util.rs`, `src/types.rs`) over plain Lean data:

* bytes are `Nat` (ASCII codes), sequences/qualities/names are `List Nat`;
* `fastq::Record` becomes the structure `Grebe.Record` (structural equality,
  matching the derived `PartialEq`/`Eq`/`Hash` used by the Rust code to place
  records in a `HashSet`);
* `HashMap<UMIVec, _>` becomes an insertion-ordered association list,
  `HashSet<FastqPair>` a duplicate-free list (`hsInsert` is a no-op on a
  present element and `hsRemove` erases it, exactly the `HashSet` contract);
  where the Rust iteration order of a hash container is observable and
  run-dependent it is threaded as an explicit order parameter;
* fallible / panicking paths (`unwrap` on an empty set, out-of-bounds byte
  slice, `usize` subtraction underflow, `unimplemented!`) return `Option.none`;
* quality-vote totals are `u32` in the source; they are modelled as `Nat`
  (overflow would need more than 2^24 reads on one position and no claim
  concerns it);
* writers are modelled as an in-order log of the pairs passed to
  `PairHandler::write_pair`.
-/

namespace Grebe

/-- Source `bio::io::fastq::Record` (named fields `id`, `desc`, `seq`, `qual`), all
byte strings; `desc` optional.  `types.rs`: `FastqPair = (Record, Record)`. -/
structure Record where
  id : List Nat
  desc : Option (List Nat)
  seq : List Nat
  qual : List Nat
deriving DecidableEq, Repr

/-- Source `types.rs`: `pub(crate) type FastqPair = (fastq::Record, fastq::Record);` -/
abbrev FastqPair := Record × Record

/-- Source `types.rs`: `pub(crate) type UMIVec = Vec<u8>;` -/
abbrev UMIVec := List Nat

/-- Source `pair_handler.rs`: `enum UMICollisionResolutionMethod`. -/
inductive UMICollisionResolutionMethod where
  | none
  | keepFirst
  | keepLast
  | keepLongestLeft
  | keepLongestRight
  | keepLongestExtend
  | qualityVote
deriving DecidableEq, Repr

abbrev CRM := UMICollisionResolutionMethod

/-- Source `u8::to_ascii_uppercase`. -/
def toUpper (b : Nat) : Nat := if 97 ≤ b ∧ b ≤ 122 then b - 32 else b

/-- Source `types.rs`: `BaseQualityVotes = (u32, u32, u32, u32)` in ATCG order. -/
structure Votes where
  a : Nat
  t : Nat
  c : Nat
  g : Nat
deriving DecidableEq, Repr

/-- One step of `PairHandler::update_vote_vec`: add the raw quality byte `q`
to the channel selected by the (uppercased) base `b`; `N` abstains; any other
byte is `unimplemented!()` (modelled as `Option.none`). -/
def bumpChannel (v : Votes) (b q : Nat) : Option Votes :=
  if toUpper b = 65 then some ⟨v.a + q, v.t, v.c, v.g⟩
  else if toUpper b = 84 then some ⟨v.a, v.t + q, v.c, v.g⟩
  else if toUpper b = 67 then some ⟨v.a, v.t, v.c + q, v.g⟩
  else if toUpper b = 71 then some ⟨v.a, v.t, v.c, v.g + q⟩
  else if toUpper b = 78 then some v
  else Option.none

/-- One side of `PairHandler::update_vote_vec`: walk the `(base, qual)` data
in lockstep with the vote vector.  Data positions beyond the vote vector hit
`votes.get_mut(ind).unwrap()` out of bounds in the source (`Option.none`);
vote positions beyond the data are left unchanged. -/
def tallySide : List Votes → List (Nat × Nat) → Option (List Votes)
  | vs, [] => some vs
  | [], _ :: _ => Option.none
  | v :: vs, bq :: rest =>
    match bumpChannel v bq.1 bq.2, tallySide vs rest with
    | some v2, some vs2 => some (v2 :: vs2)
    | _, _ => Option.none

/-- Source `PairHandler::update_vote_vec`: the forward side drops the first
`umi_len` `(base, qual)` pairs (`.dropping(umi_len)` on the zipped iterator),
the reverse side is tallied in full. -/
def updateVoteVec (votes : List Votes × List Votes) (pair : FastqPair)
    (umiLen : Nat) : Option (List Votes × List Votes) :=
  match tallySide votes.1 ((pair.1.seq.zip pair.1.qual).drop umiLen),
        tallySide votes.2 (pair.2.seq.zip pair.2.qual) with
  | some v1, some v2 => some (v1, v2)
  | _, _ => Option.none

/-- Source `new.seq().starts_with(old.seq())` for byte strings. -/
def startsWithList (p s : List Nat) : Bool := decide (s.take p.length = p)

/-- Source `UMICollisionResolutionMethod::_compare_for_extension` on one side.
For the three `KeepLongest*` variants it selects between `old` and `new`;
every other variant is `unimplemented!()` (modelled as `Option.none`). -/
def compareForExtension (m : CRM) (oldr newr : Record) : Option Record :=
  match m with
  | .keepLongestLeft | .keepLongestRight | .keepLongestExtend =>
    if oldr.seq.length < newr.seq.length then
      match m with
      | .keepLongestExtend =>
        some (if startsWithList oldr.seq newr.seq then newr else oldr)
      | _ => some newr
    else if oldr.seq.length = newr.seq.length then
      match m with
      | .keepLongestRight => some newr
      | _ => some oldr
    else
      some oldr
  | _ => Option.none

/-- Source `HashSet::insert`: no-op when an equal element is already present. -/
def hsInsert [DecidableEq α] (x : α) (s : List α) : List α :=
  if x ∈ s then s else s ++ [x]

/-- Source `HashSet::remove`. -/
def hsRemove [DecidableEq α] (x : α) (s : List α) : List α := s.erase x

/-- Source `HashMap::get` on an insertion-ordered association list. -/
def alLookup [DecidableEq κ] (k : κ) : List (κ × β) → Option β
  | [] => Option.none
  | kv :: rest => if k = kv.1 then some kv.2 else alLookup k rest

/-- In-place replacement of the value stored under a present key
(the effect of mutating through `HashMap::get_mut`). -/
def alReplace [DecidableEq κ] (k : κ) (v : β) : List (κ × β) → List (κ × β)
  | [] => []
  | kv :: rest => if k = kv.1 then (kv.1, v) :: rest else kv :: alReplace k v rest

/-- The observable state of `PairHandler` (`pair_handler.rs`): the collision
resolution method, the bin table, the vote table, the `good_records` counter
and the ordered log of pairs handed to `write_pair`. -/
structure PairHandler where
  crm : CRM
  umiBins : List (UMIVec × List FastqPair)
  qualityVotes : List (UMIVec × (List Votes × List Votes))
  goodRecords : Nat
  written : List FastqPair
deriving DecidableEq, Repr

/-- Source `PairHandler::write_pair` forwards `name()` (which is the record id in
`rust-bio`'s `fastq::Record`) as the written id and `id()` as the written
description, so the record that reaches disk has its description replaced by
a copy of its id. -/
def writeShuffle (r : Record) : Record := { r with desc := some r.id }

/-- Source `PairHandler::write_pair` as a log append. -/
def writePair (h : PairHandler) (pair : FastqPair) : PairHandler :=
  { h with written := h.written ++ [(writeShuffle pair.1, writeShuffle pair.2)] }

/-- The id prefixing done by the `None` arm of `insert_pair`:
`id_prefix.to_owned() + " " + name` where `id_prefix` is the UMI (empty for a
length-0 UMI).  Note the single space (byte 32) is appended in both cases. -/
def prependUMI (umi : UMIVec) (r : Record) : Record :=
  { r with id := umi ++ 32 :: r.id }

/-- Source `PairHandler::insert_pair`.  `Option.none` models a panic:
`unwrap()` on an empty retained set (`KeepLongest*` subsequent insertion),
`usize` underflow in `pair.0.len() - umi.len()` (`QualityVote`), or a panic
inside `update_vote_vec`. -/
def insertPair (h : PairHandler) (umi : UMIVec) (pair : FastqPair) :
    Option PairHandler :=
  match h.crm with
  | .none =>
    some (writePair { h with goodRecords := h.goodRecords + 1 }
      (prependUMI umi pair.1, prependUMI umi pair.2))
  | _ =>
    match alLookup umi h.umiBins with
    | Option.none =>
      match h.crm with
      | .none => Option.none
      | .qualityVote =>
        if pair.1.seq.length < umi.length then Option.none
        else
          match updateVoteVec
              (List.replicate (pair.1.seq.length - umi.length) ⟨0, 0, 0, 0⟩,
               List.replicate pair.2.seq.length ⟨0, 0, 0, 0⟩) pair umi.length with
          | Option.none => Option.none
          | some votes =>
            some { h with qualityVotes := h.qualityVotes ++ [(umi, votes)],
                          goodRecords := h.goodRecords + 1,
                          umiBins := h.umiBins ++ [(umi, [])] }
      | .keepFirst =>
        some { (writePair h pair) with goodRecords := h.goodRecords + 1,
                                       umiBins := h.umiBins ++ [(umi, [])] }
      | _ =>
        some { h with goodRecords := h.goodRecords + 1,
                      umiBins := h.umiBins ++ [(umi, [pair])] }
    | some set =>
      match h.crm with
      | .none | .keepFirst => some h
      | .qualityVote =>
        match alLookup umi h.qualityVotes with
        | Option.none => Option.none
        | some votes =>
          if pair.1.seq.length < umi.length then Option.none
          else
            match updateVoteVec
                (votes.1 ++ List.replicate
                  ((pair.1.seq.length - umi.length) - votes.1.length) ⟨0, 0, 0, 0⟩,
                 votes.2 ++ List.replicate
                  (pair.2.seq.length - votes.2.length) ⟨0, 0, 0, 0⟩)
                pair umi.length with
            | Option.none => Option.none
            | some votes2 =>
              some { h with qualityVotes :=
                       alReplace umi votes2 h.qualityVotes }
      | .keepLast =>
        some { h with umiBins := alReplace umi [pair] h.umiBins }
      | _ =>
        match set.head? with
        | Option.none => Option.none
        | some oldp =>
          match compareForExtension h.crm oldp.1 pair.1,
                compareForExtension h.crm oldp.2 pair.2 with
          | some c1, some c2 =>
            let set2 := hsRemove oldp (hsInsert (c1, c2) set)
            some { h with umiBins := alReplace umi set2 h.umiBins }
          | _, _ => Option.none

/-- Rust `Iterator::max_by_key`: among elements with equal (maximal) key the
LAST one is returned (`std` documents this). -/
def maxByKeyLast (f : α → Nat) : List α → Option α
  | [] => Option.none
  | x :: xs =>
    match maxByKeyLast f xs with
    | Option.none => some x
    | some y => some (if f x > f y then x else y)

/-- The key function of the `count_votes` closure in
`PairHandler::save_remaining`: channel `i` of a vote tuple, ATCG order. -/
def voteKey (v : Votes) (i : Nat) : Nat :=
  if i = 0 then v.a else if i = 1 then v.t
  else if i = 2 then v.c else if i = 3 then v.g else 0

/-- The `count_votes` closure of `PairHandler::save_remaining`:
`(0..4).max_by_key(...)` then map the winning index to a base byte.
The `unimplemented!()` arms are unreachable (the list is `[0,1,2,3]`);
they are modelled by the final catch-all `0`. -/
def countVotes (v : Votes) : Nat :=
  match maxByKeyLast (voteKey v) [0, 1, 2, 3] with
  | some i => if i = 0 then 65 else if i = 1 then 84 else if i = 2 then 67
      else if i = 3 then 71 else 0
  | Option.none => 0

/-- The byte string `constructed by grebe from quality voting` (the fixed
description literal of `save_remaining`). -/
def descLiteral : List Nat :=
  [99, 111, 110, 115, 116, 114, 117, 99, 116, 101, 100, 32, 98, 121, 32,
   103, 114, 101, 98, 101, 32, 102, 114, 111, 109, 32, 113, 117, 97, 108,
   105, 116, 121, 32, 118, 111, 116, 105, 110, 103]

/-- One consensus record built by `save_remaining` for policy `QualityVote`:
name is the bin key, description the fixed literal, sequence the per-position
vote winners, quality all `~` (byte 126) of the resolved length. -/
def consensusRecord (umi : UMIVec) (vs : List Votes) : Record :=
  { id := umi, desc := some descLiteral, seq := vs.map countVotes,
    qual := List.replicate (vs.map countVotes).length 126 }

/-- Iteration of `PairHandler::save_remaining` over (a clone of) the bin
table.  The Rust `HashMap` iteration order is arbitrary; it only permutes the
order of flush-time writes, which no claim depends on, so the insertion order
of the association list is used.  `Option.none` models the
`pairs.iter().next().unwrap()` panic on an empty retained set and the
`quality_votes.get(&umi).unwrap()` panic on a missing vote entry. -/
def saveRemainingGo : PairHandler → List (UMIVec × List FastqPair) → Option PairHandler
  | h, [] => some h
  | h, (umi, pairsSet) :: rest =>
    match h.crm with
    | .keepFirst | .none => saveRemainingGo h rest
    | .qualityVote =>
      match alLookup umi h.qualityVotes with
      | Option.none => Option.none
      | some votes =>
        saveRemainingGo
          (writePair h (consensusRecord umi votes.1, consensusRecord umi votes.2)) rest
    | _ =>
      match pairsSet.head? with
      | Option.none => Option.none
      | some p => saveRemainingGo (writePair h p) rest

/-- Source `PairHandler::save_remaining` (called `write_remaining` at the call site
in `main.rs`). -/
def saveRemaining (h : PairHandler) : Option PairHandler :=
  saveRemainingGo h h.umiBins

/-- Source `bio::alphabets::dna::alphabet()`: the pure DNA alphabet `ACGTacgt`. -/
def dnaAlphabet (b : Nat) : Bool :=
  decide (b = 65 ∨ b = 67 ∨ b = 71 ∨ b = 84 ∨ b = 97 ∨ b = 99 ∨ b = 103 ∨ b = 116)

/-- Source `util.rs`: `check_primer_base` — IUPAC matching of one primer byte
against one sequence byte; a primer byte outside the IUPAC letters is
`unimplemented!()` (`Option.none`). -/
def checkPrimerBase (pb sb : Nat) : Option Bool :=
  if toUpper pb = 65 ∨ toUpper pb = 84 ∨ toUpper pb = 67 ∨ toUpper pb = 71 then
    some (decide (toUpper pb = toUpper sb))
  else if toUpper pb = 87 then some (decide (toUpper sb = 65 ∨ toUpper sb = 84))
  else if toUpper pb = 77 then some (decide (toUpper sb = 65 ∨ toUpper sb = 67))
  else if toUpper pb = 82 then some (decide (toUpper sb = 65 ∨ toUpper sb = 71))
  else if toUpper pb = 89 then some (decide (toUpper sb = 84 ∨ toUpper sb = 67))
  else if toUpper pb = 75 then some (decide (toUpper sb = 84 ∨ toUpper sb = 71))
  else if toUpper pb = 83 then some (decide (toUpper sb = 67 ∨ toUpper sb = 71))
  else if toUpper pb = 66 then some (decide (toUpper sb ≠ 65))
  else if toUpper pb = 86 then some (decide (toUpper sb ≠ 84))
  else if toUpper pb = 68 then some (decide (toUpper sb ≠ 67))
  else if toUpper pb = 72 then some (decide (toUpper sb ≠ 71))
  else if toUpper pb = 78 then some true
  else Option.none

/-- The `primer.iter().zip(seq.iter().take(primer.len())).all(...)` loop of
`check_primer`: short-circuits on the first mismatch, so a later invalid
primer byte is only a panic if it is actually reached. -/
def checkPrimerZip : List Nat → List Nat → Option Bool
  | [], _ => some true
  | _ :: _, [] => some true
  | pb :: ps, sb :: ss =>
    match checkPrimerBase pb sb with
    | Option.none => Option.none
    | some false => some false
    | some true => checkPrimerZip ps ss

/-- Source `util.rs`: `check_primer` followed by the call sites'
`.unwrap_or_default()` (an `Err` — a non-`ACGTacgt` byte in the examined
sequence window — becomes `false`).  The initial `&seq[..primer.len()]` slice
panics when the sequence is shorter than the primer (`Option.none`); the
later dead length check of the source is therefore not reachable. -/
def checkPrimerCall (primer seq : List Nat) : Option Bool :=
  if seq.length < primer.length then Option.none
  else if ¬ (seq.take primer.length).all dnaAlphabet then some false
  else checkPrimerZip primer (seq.take primer.length)

/-- Hamming distance of two byte strings, counted over zipped positions
(the call sites only ever compare equal-length UMIs). -/
def hammingDist : List Nat → List Nat → Nat
  | [], _ => 0
  | _, [] => 0
  | x :: xs, y :: ys => (if x = y then 0 else 1) + hammingDist xs ys

/-- Source `itertools` `combinations(k)`: all sorted `k`-element sublists, in
lexicographic order of positions. -/
def combinationsList : List α → Nat → List (List α)
  | _, 0 => [[]]
  | [], _ + 1 => []
  | x :: xs, k + 1 =>
    (combinationsList xs k).map (fun l => x :: l) ++ combinationsList xs (k + 1)

/-- Source `itertools` `multi_cartesian_product` (first factor varies slowest). -/
def cartProd : List (List α) → List (List α)
  | [] => [[]]
  | l :: ls => l.flatMap (fun x => (cartProd ls).map (fun t => x :: t))

/-- Source `std::iter::repeat("ATCG".chars()).take(r).multi_cartesian_product()`:
all length-`r` tuples over the bytes `A`, `T`, `C`, `G`. -/
def newBases (r : Nat) : List (List Nat) :=
  cartProd (List.replicate r [65, 84, 67, 71])

/-- Applying one base substitution tuple to the UMI:
`umi_modified[*index] = new_value` over the zipped index/value list
(indices produced by the caller are always in range). -/
def applySubst (umi : UMIVec) (subs : List (Nat × Nat)) : UMIVec :=
  subs.foldl (fun acc iv => acc.set iv.1 iv.2) umi

/-- The proactive neighbor enumeration of `main.rs` (lines 356-377), in the
exact loop order of the source: outer loop over position combinations, inner
loop over base tuples. -/
def candidateList (umi : UMIVec) (L r : Nat) : List UMIVec :=
  (combinationsList (List.range L) r).flatMap
    (fun idxs => (newBases r).map (fun bases => applySubst umi (idxs.zip bases)))

/-- Deduplication keeping first occurrences: the element set of the
`found_bins: HashSet<UMIVec>` accumulated by the `--crm none` proactive
branch (its iteration order is supplied separately as an order oracle). -/
def dedupKeep [DecidableEq α] : List α → List α
  | [] => []
  | x :: xs => x :: (dedupKeep xs).filter (fun y => decide (y ≠ x))

/-- Source expression in `main.rs`: the `max_by_key` key, i.e. the size of the bin
stored under `k`, with a missing key counting as 0. -/
def binSize (bins : List (UMIVec × List FastqPair)) (k : UMIVec) : Nat :=
  match alLookup k bins with
  | Option.none => 0
  | some s => s.length

/-- The `found_bins.into_iter().max_by_key(...)` choice of the `--crm none`
proactive branch, taking the iteration order of the hash set as an explicit
list: the chosen key is the LAST candidate (in that order) whose bin is
largest, bins not in the table counting as size 0. -/
def chooseNoneKey (bins : List (UMIVec × List FastqPair)) (cands : List UMIVec) :
    Option UMIVec :=
  maxByKeyLast (binSize bins) cands

/-- The proactive key search for every policy other than `None`: insert at
the first enumerated candidate present in the bin table, falling back to the
incoming UMI when the enumeration is exhausted. -/
def chooseKeyProactive (bins : List (UMIVec × List FastqPair)) (umi : UMIVec)
    (L r : Nat) : UMIVec :=
  match (candidateList umi L r).find? (fun c => (alLookup c bins).isSome) with
  | some c => c
  | Option.none => umi

/-- Source `types.rs` `WhichRead`. -/
inductive WhichRead where
  | FORWARD
  | REVERSE
deriving DecidableEq, Repr

/-- Modelled from the spec: the drop-reason counters.  `types.rs` in `src/`
declares only `both_masked`, while `main.rs` also increments
`no_forward_primer`, `umi_is_forward_primer`, `no_reverse_primer` and calls
`.total()`; the missing fields follow spec §4.1/§7. -/
structure DropReasons where
  bothMasked : Nat
  noForwardPrimer : Nat
  umiIsForwardPrimer : Nat
  noReversePrimer : Nat
deriving DecidableEq, Repr

/-- Modelled from the spec: `PairDropReasonCount::total()`. -/
def DropReasons.total (d : DropReasons) : Nat :=
  d.bothMasked + d.noForwardPrimer + d.umiIsForwardPrimer + d.noReversePrimer

/-- The full per-run state: the `PairHandler` plus the counters and unpaired
outputs that `main.rs` uses but whose fields are missing from the
`pair_handler.rs` revision in `src/` (modelled from the spec where missing).
`insertLog` records, in order, each `insert_pair(k, pair)` call made by the
main loop — the bin assignment of every admitted pair. -/
structure LoopState where
  handler : PairHandler
  drops : DropReasons
  unpairedFwd : List Record
  unpairedRev : List Record
  recordsUnpaired : Nat × Nat
  insertLog : List (UMIVec × FastqPair)
deriving DecidableEq, Repr

/-- Modelled from the spec: `PairHandler::write_unpaired(record, side)` —
absent from the `pair_handler.rs` revision in `src/` (only its caller in
`main.rs` is present).  Per spec §4.1 and §8 S3 it writes the given record to
the unpaired output named by `side` and increments that side's unpaired
counter (`records_unpaired.0` forward, `.1` reverse). -/
def writeUnpaired (st : LoopState) (r : Record) (w : WhichRead) : LoopState :=
  match w with
  | .FORWARD =>
    { st with unpairedFwd := st.unpairedFwd ++ [r],
              recordsUnpaired := (st.recordsUnpaired.1 + 1, st.recordsUnpaired.2) }
  | .REVERSE =>
    { st with unpairedRev := st.unpairedRev ++ [r],
              recordsUnpaired := (st.recordsUnpaired.1, st.recordsUnpaired.2 + 1) }

/-- Source `fastq::Record::check` as used at the top of the loop: a failed check
aborts the process.  Modelled as: non-empty id and equal seq/qual lengths. -/
def recordValid (r : Record) : Bool :=
  decide (r.id ≠ []) && decide (r.seq.length = r.qual.length)

/-- Source `all(b == b'N')` (capital `N` only, byte 78) — the masking test. -/
def allN (s : List Nat) : Bool := s.all (fun b => decide (b = 78))

/-- The run parameters after `main.rs`'s normalisation, plus the iteration
order oracle `ord` standing for the run-dependent `HashSet` iteration order
of `found_bins` (Rust's hasher is randomly seeded per process, so this order
is NOT a function of the input). -/
structure Params where
  umiLength : Nat
  hammingRadius : Nat
  proactive : Bool
  crm : CRM
  forwardPrimer : Option (List Nat)
  reversePrimer : Option (List Nat)
  ord : List UMIVec → List UMIVec

/-- The argument normalisation of `main.rs` (lines 164-196): a zero UMI
length silently forces policy `None`; the radius is capped at the UMI length;
proactive binning defaults to `radius ≤ 3 && policy ≠ None` unless overridden. -/
def mkParams (umiLengthArg hammingRadiusArg : Nat) (crmArg : CRM)
    (proactiveArg : Option Bool) (fp rp : Option (List Nat))
    (ord : List UMIVec → List UMIVec) : Params :=
  let crm := if umiLengthArg = 0 then UMICollisionResolutionMethod.none else crmArg
  let r := min hammingRadiusArg umiLengthArg
  { umiLength := umiLengthArg,
    hammingRadius := r,
    proactive := match proactiveArg with
      | some b => b
      | Option.none => decide (r ≤ 3) && decide (crm ≠ UMICollisionResolutionMethod.none),
    crm := crm,
    forwardPrimer := fp,
    reversePrimer := rp,
    ord := ord }

/-- The verdict of the per-pair classification (validity, masking, primers),
mirroring `main.rs` lines 254-336.  `panic` stands for `exit(1)` or a panic. -/
inductive Verdict where
  | panic
  | unpairedF (r : Record)
  | unpairedR (r : Record)
  | dropBoth
  | dropNoFwd
  | dropUmiIsFwd
  | dropNoRev
  | keep
deriving DecidableEq, Repr

/-- The reverse-primer check (`main.rs` lines 323-336). -/
def classifyRev (p : Params) (pair : FastqPair) : Verdict :=
  match p.reversePrimer with
  | some rp =>
    if pair.2.seq.length < rp.length then .dropNoRev
    else
      match checkPrimerCall rp pair.2.seq with
      | some swp => if !swp then .dropNoRev else .keep
      | Option.none => .panic
  | Option.none => .keep

/-- The classification of one incoming pair, in the source's exact order:
record validity (fatal), masking (note the source hands the MASKED record to
`write_unpaired`, tagged with the opposite side), forward primer, reverse
primer. -/
def classify (p : Params) (pair : FastqPair) : Verdict :=
  if ¬ (recordValid pair.1 && recordValid pair.2) then .panic
  else
    match allN pair.1.seq, allN pair.2.seq with
    | true, false => .unpairedR pair.1
    | false, true => .unpairedF pair.2
    | true, true => .dropBoth
    | false, false =>
      match p.forwardPrimer with
      | some fp =>
        if pair.1.seq.length < p.umiLength + fp.length then .dropNoFwd
        else
          match checkPrimerCall fp pair.1.seq,
                checkPrimerCall fp (pair.1.seq.drop p.umiLength) with
          | some swp, some swup =>
            if decide (0 < p.umiLength) && swp && !swup then .dropUmiIsFwd
            else if !swup then .dropNoFwd
            else classifyRev p pair
          | _, _ => .panic
      | Option.none => classifyRev p pair

/-- One `insert_pair` call made by the loop, also recording the chosen bin
key in `insertLog`. -/
def doInsert (st : LoopState) (k : UMIVec) (pair : FastqPair) : Option LoopState :=
  match insertPair st.handler k pair with
  | Option.none => Option.none
  | some h => some { st with handler := h, insertLog := st.insertLog ++ [(k, pair)] }

/-- The UMI extraction and bin selection of `main.rs` lines 338-404.
`read_pair.0.seq()[..umi_length]` panics when the forward sequence is shorter
than the UMI length (`Option.none`) — nothing upstream guarantees the length
when no forward primer is configured. -/
def binInsert (p : Params) (st : LoopState) (pair : FastqPair) : Option LoopState :=
  if 0 < p.umiLength then
    if pair.1.seq.length < p.umiLength then Option.none
    else
      let umi := pair.1.seq.take p.umiLength
      if p.hammingRadius = 0 then doInsert st umi pair
      else if (alLookup umi st.handler.umiBins).isSome then doInsert st umi pair
      else if p.proactive then
        if p.crm = UMICollisionResolutionMethod.none then
          match chooseNoneKey st.handler.umiBins
              (p.ord (dedupKeep (candidateList umi p.umiLength p.hammingRadius))) with
          | Option.none => doInsert st umi pair
          | some k => doInsert st k pair
        else
          doInsert st (chooseKeyProactive st.handler.umiBins umi p.umiLength p.hammingRadius) pair
      else
        match (st.handler.umiBins.map Prod.fst).find?
            (fun k => decide (hammingDist k umi ≤ p.hammingRadius)) with
        | Option.none => doInsert st umi pair
        | some found => doInsert st found pair
  else
    doInsert st [] pair

/-- One iteration of the `'pairs` loop. -/
def processPair (p : Params) (st : LoopState) (pair : FastqPair) : Option LoopState :=
  match classify p pair with
  | .panic => Option.none
  | .unpairedF r => some (writeUnpaired st r WhichRead.FORWARD)
  | .unpairedR r => some (writeUnpaired st r WhichRead.REVERSE)
  | .dropBoth =>
    some { st with drops := { st.drops with bothMasked := st.drops.bothMasked + 1 } }
  | .dropNoFwd =>
    some { st with drops := { st.drops with noForwardPrimer := st.drops.noForwardPrimer + 1 } }
  | .dropUmiIsFwd =>
    some { st with drops := { st.drops with umiIsForwardPrimer := st.drops.umiIsForwardPrimer + 1 } }
  | .dropNoRev =>
    some { st with drops := { st.drops with noReversePrimer := st.drops.noReversePrimer + 1 } }
  | .keep => binInsert p st pair

/-- The whole `'pairs` loop over the zipped reader streams. -/
def processAll (p : Params) : LoopState → List FastqPair → Option LoopState
  | st, [] => some st
  | st, pair :: rest =>
    match processPair p st pair with
    | Option.none => Option.none
    | some st2 => processAll p st2 rest

def initHandler (crm : CRM) : PairHandler :=
  { crm := crm, umiBins := [], qualityVotes := [], goodRecords := 0, written := [] }

def initState (crm : CRM) : LoopState :=
  { handler := initHandler crm, drops := ⟨0, 0, 0, 0⟩, unpairedFwd := [],
    unpairedRev := [], recordsUnpaired := (0, 0), insertLog := [] }

/-- The whole run: the `'pairs` loop over `fwd.zip rev` (the readers are
advanced in lockstep, so only `min` of the two record counts is processed),
followed by the final flush `write_remaining`/`save_remaining`. -/
def runGrebe (p : Params) (fwd rev : List Record) : Option LoopState :=
  match processAll p (initState p.crm) (fwd.zip rev) with
  | Option.none => Option.none
  | some st =>
    match saveRemaining st.handler with
    | Option.none => Option.none
    | some h => some { st with handler := h }

/-- Source `main.rs` line 237: `records_total = max(total_records.0, total_records.1)`. -/
def recordsTotal (fwd rev : List Record) : Nat := max fwd.length rev.length

/-- The number of pairs currently retained inside the bin table. -/
def heldPairs (h : PairHandler) : Nat :=
  (h.umiBins.map (fun kv => kv.2.length)).sum

/-- Sum of all per-pair outcome counters of the loop state: counted drops,
unpaired-forward, unpaired-reverse, and resolver insertions. -/
def loopTally (st : LoopState) : Nat :=
  st.drops.total + st.recordsUnpaired.1 + st.recordsUnpaired.2 + st.insertLog.length

/-- Helper building a concrete one-byte-name record for the worked inputs. -/
def mkRec (idb : Nat) (seq qual : List Nat) : Record :=
  { id := [idb], desc := Option.none, seq := seq, qual := qual }

/-- Worked input: a pair whose forward read has a 2-base sequence. -/
def exLong : FastqPair := (mkRec 102 [65, 65] [35, 35], mkRec 103 [67] [35])

/-- Worked input: a pair whose forward read has a 1-base sequence (shorter
than `exLong`). -/
def exShort : FastqPair := (mkRec 104 [65] [35], mkRec 105 [67] [35])

/-- Worked input: a structurally valid pair whose forward sequence (2 bases)
is shorter than a UMI length of 4. -/
def exShortRead : FastqPair := (mkRec 100 [65, 67] [35, 35], mkRec 106 [71, 84] [35, 35])

/-- Worked input record with name byte `r` (114). -/
def exRecC2 : Record := mkRec 114 [65] [35]

/-- Worked run of the policy-`None` insertion at the empty UMI. -/
def exRunC2 : Option PairHandler :=
  insertPair (initHandler .none) [] (exRecC2, exRecC2)

/-- Worked input: an all-`N` (masked) forward record. -/
def exMaskedF : Record := mkRec 100 [78, 78] [35, 35]

/-- Worked input: an ordinary reverse record. -/
def exNormalR : Record := mkRec 107 [71, 84] [35, 35]

/-- Worked input for the vote-tally theorems: forward `AC` with quality
bytes 5 and 7, empty reverse. -/
def exPairC3 : FastqPair := (mkRec 100 [65, 67] [5, 7], mkRec 101 [] [])

/-- Worked parameters: no UMI (`-u 0`), which forces policy `None`. -/
def exParU0 : Params :=
  mkParams 0 0 .keepFirst Option.none Option.none Option.none id

/-- Worked parameters: `-u 4`, radius 0, `KeepFirst`, no primers. -/
def exParU4 : Params :=
  mkParams 4 0 .keepFirst Option.none Option.none Option.none id

/-- Worked parameters: `-u 1 --hr 1 --crm none --proactive-binning true`. -/
def exParNoneProactive : Params :=
  mkParams 1 1 .none (some true) Option.none Option.none id

/-- Worked parameters: `-u 4 --hr 1 --crm keep-first --proactive-binning true`. -/
def exParC8 : Params :=
  mkParams 4 1 .keepFirst (some true) Option.none Option.none id

/-- Helper building a worked pair with the given forward UMI prefix. -/
def mkUmiPair (umiSeq : List Nat) (idb : Nat) : FastqPair :=
  (mkRec idb (umiSeq ++ [67, 67]) [35, 35, 35, 35, 35, 35],
   mkRec (idb + 1) [71, 71] [35, 35])

/-- Worked input with forward UMI `AAAA`. -/
def exPairAAAA : FastqPair := mkUmiPair [65, 65, 65, 65] 100

/-- Worked input with forward UMI `AATA` (distance 1 from `AAAA`). -/
def exPairAATA : FastqPair := mkUmiPair [65, 65, 84, 65] 110

/-- Worked input with forward UMI `ATTA` (distance 1 from `AATA`,
distance 2 from `AAAA`). -/
def exPairATTA : FastqPair := mkUmiPair [65, 84, 84, 65] 120

/-- Worked forward input file with two records. -/
def exFwdRecords : List Record := [mkRec 100 [65, 67] [35, 35], mkRec 101 [65, 67] [35, 35]]

/-- Worked reverse input file with one record. -/
def exRevRecords : List Record := [mkRec 102 [71, 84] [35, 35]]

/-- Worked input pair for the loop-conservation witness. -/
def exPairC7 : FastqPair := (mkRec 100 [65, 67] [35, 35], mkRec 102 [71, 84] [35, 35])

/-- The loop state after processing `exPairC7` under `exParU0`. -/
def exStateC7 : LoopState :=
  (processAll exParU0 (initState exParU0.crm) [exPairC7]).getD (initState exParU0.crm)

/-- One candidate-set iteration order over the distance-1 neighbors of the
one-byte UMI `A`. -/
def exCandsC9 : List UMIVec := [[65], [84], [67], [71]]

theorem loopTally_writeUnpaired (st : LoopState) (r : Record) (w : WhichRead) :
    loopTally (writeUnpaired st r w) = loopTally st + 1 := by
  cases w <;> simp only [writeUnpaired, loopTally] <;> omega

theorem loopTally_doInsert (st : LoopState) (k : UMIVec) (pair : FastqPair)
    (st2 : LoopState) (h : doInsert st k pair = some st2) :
    loopTally st2 = loopTally st + 1 := by
  unfold doInsert at h
  split at h
  · exact Option.noConfusion h
  · obtain rfl := Option.some.inj h
    simp [loopTally]; omega

theorem loopTally_binInsert (p : Params) (st : LoopState) (pair : FastqPair)
    (st2 : LoopState) (h : binInsert p st pair = some st2) :
    loopTally st2 = loopTally st + 1 := by
  unfold binInsert at h
  repeat'
    first
      | exact loopTally_doInsert _ _ _ _ h
      | exact Option.noConfusion h
      | split at h
      | dsimp only at h

theorem loopTally_processPair (p : Params) (st : LoopState) (pair : FastqPair)
    (st2 : LoopState) (h : processPair p st pair = some st2) :
    loopTally st2 = loopTally st + 1 := by
  unfold processPair at h
  split at h
  · exact Option.noConfusion h
  · obtain rfl := Option.some.inj h; exact loopTally_writeUnpaired _ _ _
  · obtain rfl := Option.some.inj h; exact loopTally_writeUnpaired _ _ _
  · obtain rfl := Option.some.inj h
    simp only [loopTally, DropReasons.total]; omega
  · obtain rfl := Option.some.inj h
    simp only [loopTally, DropReasons.total]; omega
  · obtain rfl := Option.some.inj h
    simp only [loopTally, DropReasons.total]; omega
  · obtain rfl := Option.some.inj h
    simp only [loopTally, DropReasons.total]; omega
  · exact loopTally_binInsert _ _ _ _ h

theorem tallySide_length (vs : List Votes) (data : List (Nat × Nat))
    (vs2 : List Votes) (h : tallySide vs data = some vs2) :
    vs2.length = vs.length := by
  induction vs generalizing data vs2 with
  | nil =>
    cases data with
    | nil => obtain rfl := Option.some.inj h; rfl
    | cons bq rest => exact Option.noConfusion h
  | cons v vs ih =>
    cases data with
    | nil => obtain rfl := Option.some.inj h; rfl
    | cons bq rest =>
      simp only [tallySide] at h
      cases hb : bumpChannel v bq.1 bq.2 <;> cases ht : tallySide vs rest <;>
          rw [hb, ht] at h <;> try exact Option.noConfusion h
      obtain rfl := Option.some.inj h
      simp [ih rest _ ht]

theorem tallySide_get (vs : List Votes) (data : List (Nat × Nat))
    (vs2 : List Votes) (h : tallySide vs data = some vs2) (i : Nat) :
    vs2.get? i =
      match vs.get? i, data.get? i with
      | some v, some bq => bumpChannel v bq.1 bq.2
      | some v, Option.none => some v
      | Option.none, _ => Option.none := by
  induction vs generalizing data vs2 i with
  | nil =>
    cases data with
    | nil => obtain rfl := Option.some.inj h; simp
    | cons bq rest => exact Option.noConfusion h
  | cons v vs ih =>
    cases data with
    | nil =>
      obtain rfl := Option.some.inj h
      cases hv : (v :: vs).get? i <;> simp [hv]
    | cons bq rest =>
      simp only [tallySide] at h
      cases hb : bumpChannel v bq.1 bq.2 <;> cases ht : tallySide vs rest <;>
          rw [hb, ht] at h <;> try exact Option.noConfusion h
      obtain rfl := Option.some.inj h
      cases i with
      | zero => simpa using hb.symm
      | succ n => simpa using ih rest _ ht n

theorem bumpChannel_formula (v w : Votes) (b q : Nat)
    (h : bumpChannel v b q = some w) :
    w = ⟨v.a + (if toUpper b = 65 then q else 0),
         v.t + (if toUpper b = 84 then q else 0),
         v.c + (if toUpper b = 67 then q else 0),
         v.g + (if toUpper b = 71 then q else 0)⟩ := by
  unfold bumpChannel at h
  split_ifs at h with h1 h2 h3 h4 h5 <;>
    first
      | exact Option.noConfusion h
      | (obtain rfl := Option.some.inj h; simp_all)

theorem maxByKeyLast_four (f : Nat → Nat) :
    maxByKeyLast f [0, 1, 2, 3] =
      some (if f 0 > f (if f 1 > f (if f 2 > f 3 then 2 else 3) then 1
                        else if f 2 > f 3 then 2 else 3) then 0
            else if f 1 > f (if f 2 > f 3 then 2 else 3) then 1
            else if f 2 > f 3 then 2 else 3) := rfl

theorem maxByKeyLast_cons_isSome (f : α → Nat) (x : α) (xs : List α) :
    (maxByKeyLast f (x :: xs)).isSome = true := by
  cases h : maxByKeyLast f xs <;> simp [maxByKeyLast, h]

theorem maxByKeyLast_spec (f : α → Nat) (l : List α) (k : α)
    (h : maxByKeyLast f l = some k) : k ∈ l ∧ ∀ x ∈ l, f x ≤ f k := by
  induction l generalizing k with
  | nil => exact Option.noConfusion h
  | cons x xs ih =>
    simp only [maxByKeyLast] at h
    cases hxs : maxByKeyLast f xs with
    | none =>
      rw [hxs] at h
      obtain rfl := Option.some.inj h
      cases xs with
      | nil =>
        refine ⟨List.mem_singleton.mpr rfl, ?_⟩
        intro y hy
        rw [List.mem_singleton.mp hy]
      | cons z zs =>
        have hs := maxByKeyLast_cons_isSome f z zs
        rw [hxs] at hs
        exact Bool.noConfusion hs
    | some y =>
      rw [hxs] at h
      obtain rfl := Option.some.inj h
      obtain ⟨hy, hmax⟩ := ih y hxs
      by_cases hc : f x > f y
      · simp only [if_pos hc]
        refine ⟨List.mem_cons_self _ _, ?_⟩
        intro z hz
        rcases List.mem_cons.mp hz with rfl | hz
        · exact le_refl _
        · exact le_trans (hmax z hz) (le_of_lt hc)
      · simp only [if_neg hc]
        refine ⟨List.mem_cons_of_mem _ hy, ?_⟩
        intro z hz
        rcases List.mem_cons.mp hz with rfl | hz
        · omega
        · exact hmax z hz

theorem hammingDist_self (l : List Nat) : hammingDist l l = 0 := by
  induction l with
  | nil => rfl
  | cons x xs ih => simp [hammingDist, ih]

theorem hammingDist_set (l : List Nat) (i v : Nat) :
    hammingDist (l.set i v) l ≤ 1 := by
  induction l generalizing i with
  | nil => simp [List.set, hammingDist]
  | cons x xs ih =>
    cases i with
    | zero =>
      simp only [List.set, hammingDist, hammingDist_self]
      split_ifs <;> omega
    | succ n =>
      simp only [List.set, hammingDist, if_pos rfl]
      simpa using ih n

theorem hammingDist_triangle (a b c : List Nat) (hab : a.length = b.length) :
    hammingDist a c ≤ hammingDist a b + hammingDist b c := by
  induction a generalizing b c with
  | nil => simp [hammingDist]
  | cons x xs ih =>
    cases b with
    | nil => simp at hab
    | cons y ys =>
      cases c with
      | nil => simp [hammingDist]
      | cons z zs =>
        simp only [hammingDist]
        have := ih ys zs (by simpa using hab)
        split_ifs <;> omega

theorem applySubst_length (l : List (Nat × Nat)) (umi : UMIVec) :
    (applySubst umi l).length = umi.length := by
  induction l generalizing umi with
  | nil => rfl
  | cons p rest ih =>
    show (applySubst (umi.set p.1 p.2) rest).length = umi.length
    rw [ih, List.length_set]

theorem hammingDist_applySubst (l : List (Nat × Nat)) (umi : UMIVec) :
    hammingDist (applySubst umi l) umi ≤ l.length := by
  induction l generalizing umi with
  | nil => simpa [applySubst] using le_of_eq (hammingDist_self umi)
  | cons p rest ih =>
    have h1 : hammingDist (applySubst (umi.set p.1 p.2) rest) umi ≤
        hammingDist (applySubst (umi.set p.1 p.2) rest) (umi.set p.1 p.2) +
          hammingDist (umi.set p.1 p.2) umi :=
      hammingDist_triangle _ _ _ (by rw [applySubst_length, List.length_set])
    have h2 := ih (umi.set p.1 p.2)
    have h3 := hammingDist_set umi p.1 p.2
    show hammingDist (applySubst (umi.set p.1 p.2) rest) umi ≤ rest.length + 1
    omega

theorem combinationsList_mem_length (l : List α) (k : Nat) (c : List α)
    (hc : c ∈ combinationsList l k) : c.length = k := by
  induction l generalizing k c with
  | nil =>
    cases k with
    | zero => simp [combinationsList] at hc; subst hc; rfl
    | succ n => simp [combinationsList] at hc
  | cons x xs ih =>
    cases k with
    | zero => simp [combinationsList] at hc; subst hc; rfl
    | succ n =>
      simp only [combinationsList, List.mem_append, List.mem_map] at hc
      rcases hc with ⟨c2, hc2, rfl⟩ | hc
      · simp [ih _ _ hc2]
      · exact ih _ _ hc

theorem candidateList_within (umi : UMIVec) (L r : Nat) (c : UMIVec)
    (hc : c ∈ candidateList umi L r) : hammingDist c umi ≤ r := by
  simp only [candidateList, List.mem_flatMap, List.mem_map] at hc
  obtain ⟨idxs, hidxs, bases, hbases, rfl⟩ := hc
  have hlen : idxs.length = r := combinationsList_mem_length _ _ _ hidxs
  have h1 := hammingDist_applySubst (idxs.zip bases) umi
  have h2 : (idxs.zip bases).length ≤ idxs.length := by
    rw [List.length_zip]; exact Nat.min_le_left _ _
  omega

/-- Claim C1 (code bug evidence).  For `KeepLongestLeft`, inserting a pair
and then a shorter pair under the same key leaves the bin's retained set
EMPTY, not of size one: the resolved pair equals the old pair, so the
`HashSet` insert is a no-op and the following `remove` deletes the only
element.  The claim ("exactly one pair after every insert") matches the
code's own assumptions — `set.iter().next().unwrap()` on later insertions
and `pairs.iter().next().unwrap()` at flush — but not its behaviour. -/
theorem C1_retained_set_emptied :
    ((insertPair (initHandler .keepLongestLeft) [65] exLong).bind
        (fun h1 => insertPair h1 [65] exShort)).map PairHandler.umiBins =
      some [([65], [])] := by decide

/-- Claim C2 counterexample.  Under policy `None` with the empty UMI the
pair is written with id `[32, 114]` — a single space is still prepended to
the original name `[114]`, so the name is NOT unchanged — and the bin table
stays empty: the key is NOT recorded with an empty retained set. -/
theorem C2_counterexample :
    exRunC2.map (fun h => h.written.map (fun pr => pr.1.id)) = some [[32, 114]] ∧
    exRunC2.map PairHandler.umiBins = some [] ∧
    some [[32, 114]] ≠ some [[114]] := by decide

/-- Claim C2 (amended).  Under policy `None`, `insert(k, pair)` writes
exactly one pair immediately, with both written ids equal to
`k ++ [32] ++ name` — a single space is prepended even when `k` is empty —
increments `good_records`, and leaves the bin table and the vote table
unchanged: `k` is NOT recorded in the bin table. -/
theorem C2_amended (bins : List (UMIVec × List FastqPair))
    (qv : List (UMIVec × (List Votes × List Votes))) (g : Nat)
    (w : List FastqPair) (umi : UMIVec) (pair : FastqPair) :
    insertPair ⟨.none, bins, qv, g, w⟩ umi pair =
      some ⟨.none, bins, qv, g + 1,
        w ++ [(writeShuffle (prependUMI umi pair.1),
               writeShuffle (prependUMI umi pair.2))]⟩ := rfl

/-- Claim C3 counterexample.  Tallying base `A` (65) with quality byte 33
(Phred integer 0 under Phred+33) adds 33 — the raw byte — to the A channel,
whereas the claim predicts the Phred integer 33 − 33 = 0 is added.
(`--phred64` is declared by `main.rs` but never read, so no offset is ever
applied anywhere.) -/
theorem C3_counterexample :
    tallySide [⟨0, 0, 0, 0⟩] [(65, 33)] = some [⟨33, 0, 0, 0⟩] ∧
    some [(⟨33, 0, 0, 0⟩ : Votes)] ≠ some [(⟨33 - 33, 0, 0, 0⟩ : Votes)] := by
  decide

/-- Claim C3 (amended).  Under `QualityVote`, tallying a pair adds, at each
position — skipping the first `L` zipped `(base, qual)` pairs of the forward
side — the RAW quality byte (no Phred offset is subtracted; `--phred64` has
no effect) to the channel matching the base case-insensitively, with `N`
contributing nothing to any channel. -/
theorem C3_amended (votes votes2 : List Votes × List Votes) (pair : FastqPair)
    (L : Nat) (h : updateVoteVec votes pair L = some votes2) :
    (∀ i v bq, votes.1.get? i = some v →
        ((pair.1.seq.zip pair.1.qual).drop L).get? i = some bq →
        votes2.1.get? i = some ⟨v.a + (if toUpper bq.1 = 65 then bq.2 else 0),
                                v.t + (if toUpper bq.1 = 84 then bq.2 else 0),
                                v.c + (if toUpper bq.1 = 67 then bq.2 else 0),
                                v.g + (if toUpper bq.1 = 71 then bq.2 else 0)⟩) ∧
    (∀ i v bq, votes.2.get? i = some v →
        (pair.2.seq.zip pair.2.qual).get? i = some bq →
        votes2.2.get? i = some ⟨v.a + (if toUpper bq.1 = 65 then bq.2 else 0),
                                v.t + (if toUpper bq.1 = 84 then bq.2 else 0),
                                v.c + (if toUpper bq.1 = 67 then bq.2 else 0),
                                v.g + (if toUpper bq.1 = 71 then bq.2 else 0)⟩) := by
  unfold updateVoteVec at h
  cases ht1 : tallySide votes.1 ((pair.1.seq.zip pair.1.qual).drop L) <;>
    cases ht2 : tallySide votes.2 (pair.2.seq.zip pair.2.qual) <;>
      rw [ht1, ht2] at h <;> try exact Option.noConfusion h
  obtain rfl := Option.some.inj h
  constructor
  · intro i v bq hv hbq
    have hg := tallySide_get _ _ _ ht1 i
    rw [hv, hbq] at hg
    dsimp only at hg
    cases hbc : bumpChannel v bq.1 bq.2 with
    | none =>
      rw [hbc] at hg
      have hlen := tallySide_length _ _ _ ht1
      have hi : ¬ votes.1.length ≤ i := by
        intro hle
        rw [List.get?_eq_none.mpr hle] at hv
        exact Option.noConfusion hv
      have h2 := List.get?_eq_none.mp hg
      omega
    | some w =>
      rw [hbc] at hg
      rw [hg, bumpChannel_formula v w bq.1 bq.2 hbc]
  · intro i v bq hv hbq
    have hg := tallySide_get _ _ _ ht2 i
    rw [hv, hbq] at hg
    dsimp only at hg
    cases hbc : bumpChannel v bq.1 bq.2 with
    | none =>
      rw [hbc] at hg
      have hlen := tallySide_length _ _ _ ht2
      have hi : ¬ votes.2.length ≤ i := by
        intro hle
        rw [List.get?_eq_none.mpr hle] at hv
        exact Option.noConfusion hv
      have h2 := List.get?_eq_none.mp hg
      omega
    | some w =>
      rw [hbc] at hg
      rw [hg, bumpChannel_formula v w bq.1 bq.2 hbc]

/-- Claim C3 witness: the amended theorem instantiated at `exPairC3`
(forward `AC` with quality bytes 5 and 7, UMI length 1): forward vote
position 0 receives the raw byte 7 on the C channel. -/
theorem C3_amended_witness :
    ([⟨0, 0, 7, 0⟩] : List Votes).get? 0 =
      some ⟨0 + (if toUpper 67 = 65 then 7 else 0),
            0 + (if toUpper 67 = 84 then 7 else 0),
            0 + (if toUpper 67 = 67 then 7 else 0),
            0 + (if toUpper 67 = 71 then 7 else 0)⟩ :=
  (C3_amended ([⟨0, 0, 0, 0⟩], []) ([⟨0, 0, 7, 0⟩], []) exPairC3 1 (by decide)).1
    0 ⟨0, 0, 0, 0⟩ (67, 7) (by decide) (by decide)

/-- Claim C4 (code bug evidence).  On a pair with an all-`N` forward read
and an intact reverse read the code calls
`write_unpaired(read_pair.0, WhichRead::REVERSE)`: the MASKED forward record
is emitted to the unpaired-reverse output (and the reverse unpaired counter
incremented) while the intact reverse record is discarded.  The claim (and
spec §4.1/S3) says the intact record of the non-masked side is emitted. -/
theorem C4_masked_record_emitted :
    (processPair exParU0 (initState exParU0.crm) (exMaskedF, exNormalR)).map
        (fun st => (st.unpairedFwd, st.unpairedRev, st.recordsUnpaired)) =
      some ([], [exMaskedF], (0, 1)) ∧
    allN exMaskedF.seq = true ∧ allN exNormalR.seq = false ∧
    [exMaskedF] ≠ [exNormalR] := by decide

/-- Claim C5 counterexample.  With tallies A = 5, T = 5, C = 0, G = 0 the
consensus base is `T` (84): Rust's `max_by_key` returns the LAST maximal
element, so a tie is broken toward the latest of A, T, C, G — not the
earliest, as the claim states (which would give `A`, 65). -/
theorem C5_counterexample :
    countVotes ⟨5, 5, 0, 0⟩ = 84 ∧ countVotes ⟨5, 5, 0, 0⟩ ≠ 65 := by decide

/-- Claim C5 (amended).  On flush under `QualityVote` each consensus base is
a channel with the maximum tally at that position, but ties are broken
toward the LATEST channel in the fixed order A, T, C, G (G beats C beats T
beats A when tied, the opposite direction of the claim); the emitted records
carry the bin key as name and a quality string of all `~` (byte 126) of the
resolved length. -/
theorem C5_amended :
    (∀ v : Votes, countVotes v =
      if v.g ≥ v.a ∧ v.g ≥ v.t ∧ v.g ≥ v.c then 71
      else if v.c ≥ v.a ∧ v.c ≥ v.t then 67
      else if v.t ≥ v.a then 84
      else 65) ∧
    (∀ (umi : UMIVec) (vs : List Votes),
      (consensusRecord umi vs).id = umi ∧
      (consensusRecord umi vs).seq = vs.map countVotes ∧
      (consensusRecord umi vs).qual =
        List.replicate (consensusRecord umi vs).seq.length 126) := by
  constructor
  · intro v
    obtain ⟨a, t, c, g⟩ := v
    have hv0 : voteKey ⟨a, t, c, g⟩ 0 = a := rfl
    have hv1 : voteKey ⟨a, t, c, g⟩ 1 = t := rfl
    have hv2 : voteKey ⟨a, t, c, g⟩ 2 = c := rfl
    have hv3 : voteKey ⟨a, t, c, g⟩ 3 = g := rfl
    unfold countVotes
    rw [maxByKeyLast_four]
    dsimp only
    simp only [apply_ite (voteKey ⟨a, t, c, g⟩), hv0, hv1, hv2, hv3]
    split_ifs <;> first | contradiction | omega
  · intro umi vs
    exact ⟨rfl, rfl, rfl⟩

/-- Claim C6 (code bug evidence).  Policy `None`, UMI length 1, radius 1,
proactive binning forced on, EMPTY bin table (so the claim's candidate set
`H` — enumerated neighbors present in the table — is empty, and the claim
says the chosen key is the incoming UMI `A` = `[65]`).  The code instead
inserts EVERY enumerated neighbor into `found_bins` without checking the
table, so `max_by_key` picks some neighbor (all bins tie at size 0; the last
in iteration order — here the enumeration order, `G` = `[71]`) and the pair
is filed, and its name prefixed, under a UMI that was never seen.  This
contradicts the code's own comments ("we accept a new UMI" when no known
UMI is suitable). -/
theorem C6_arbitrary_candidate_chosen :
    (processPair exParNoneProactive (initState exParNoneProactive.crm) exShortRead).map
        (fun st => st.insertLog.map Prod.fst) = some [[71]] ∧
    exShortRead.1.seq.take 1 = [65] ∧
    (initState exParNoneProactive.crm).handler.umiBins = [] ∧
    ([71] : UMIVec) ≠ [65] := by decide

/-- Claim C7 counterexample.  With 2 forward records and 1 reverse record
(`-u 0`, so policy `None`), `records_total = max(2, 1) = 2`, but the loop
zips the readers and processes only 1 pair: after the run and flush,
`records_written + records_unpaired.0 + records_unpaired.1 + Σ drop_reasons
+ records_held = 1 ≠ 2`, refuting the claimed identity for inputs of
different lengths. -/
theorem C7_counterexample :
    recordsTotal exFwdRecords exRevRecords = 2 ∧
    (runGrebe exParU0 exFwdRecords exRevRecords).map
        (fun st => st.handler.written.length + st.recordsUnpaired.1 +
          st.recordsUnpaired.2 + st.drops.total + heldPairs st.handler) =
      some 1 ∧
    (2 : Nat) ≠ 1 := by decide

/-- Claim C7 (amended).  Only `min(n_f, n_r)` pairs are processed (the loop
zips the two readers), not `records_total = max(n_f, n_r)`, so the claimed
identity fails when the files differ in length.  What holds: when the loop
completes, every processed pair is counted exactly once — as a counted drop,
an unpaired-forward, an unpaired-reverse, or a resolver insertion — so those
four totals grow by exactly the number of pairs processed. -/
theorem C7_amended (p : Params) (st st2 : LoopState) (pairs : List FastqPair)
    (h : processAll p st pairs = some st2) :
    loopTally st2 = loopTally st + pairs.length := by
  induction pairs generalizing st with
  | nil =>
    obtain rfl := Option.some.inj h
    simp
  | cons pair rest ih =>
    simp only [processAll] at h
    cases hp : processPair p st pair with
    | none => rw [hp] at h; exact Option.noConfusion h
    | some st1 =>
      rw [hp] at h
      have h1 := loopTally_processPair p st pair st1 hp
      have h2 := ih st1 h
      simp only [List.length_cons]
      omega

/-- Claim C7 witness: the amended conservation identity instantiated on a
one-pair run under `exParU0`. -/
theorem C7_amended_witness :
    loopTally exStateC7 = loopTally (initState exParU0.crm) + [exPairC7].length :=
  C7_amended exParU0 (initState exParU0.crm) exStateC7 [exPairC7] (by decide)

/-- Claim C8 counterexample.  Policy `KeepFirst`, UMI length 4, Hamming
radius 1, proactive binning on.  Admitting UMIs `AAAA`, `AATA`, `ATTA` in
that order: `AATA` (distance 1 from `AAAA`) is absorbed into bin `AAAA`
WITHOUT its own UMI becoming a key, so when `ATTA` arrives (distance 1 from
`AATA`, distance 2 from `AAAA`) no key within radius exists and it opens a
new bin.  Pairs 2 and 3 have UMIs within Hamming distance 1 yet land in
different bins, refuting pairwise bin closure. -/
theorem C8_counterexample :
    (processAll exParC8 (initState exParC8.crm) [exPairAAAA, exPairAATA, exPairATTA]).map
        (fun st => st.insertLog.map Prod.fst) =
      some [[65, 65, 65, 65], [65, 65, 65, 65], [65, 84, 84, 65]] ∧
    exPairAATA.1.seq.take 4 = [65, 65, 84, 65] ∧
    exPairATTA.1.seq.take 4 = [65, 84, 84, 65] ∧
    hammingDist [65, 65, 84, 65] [65, 84, 84, 65] ≤ 1 ∧
    ([65, 65, 65, 65] : UMIVec) ≠ [65, 84, 84, 65] ∧
    exParC8.hammingRadius = 1 ∧ exParC8.proactive = true := by decide

/-- Claim C8 (amended).  Under proactive binning with a policy other than
`None`, the key selected for an incoming UMI is always within Hamming
distance `r` of it, and it is an existing bin key whenever the enumeration
finds one — a NEW bin is opened only when no enumerated neighbor is a key.
Pairwise closure of bins under distance ≤ `r` does not hold (see the
counterexample): an absorbed pair does not add its own UMI as a key, so
chains of nearby UMIs can split across bins. -/
theorem C8_amended (bins : List (UMIVec × List FastqPair)) (umi : UMIVec)
    (L r : Nat) :
    hammingDist (chooseKeyProactive bins umi L r) umi ≤ r ∧
    ((alLookup (chooseKeyProactive bins umi L r) bins).isSome = true ∨
      (chooseKeyProactive bins umi L r = umi ∧
        ∀ c ∈ candidateList umi L r, (alLookup c bins).isSome = false)) := by
  unfold chooseKeyProactive
  cases hf : (candidateList umi L r).find? (fun c => (alLookup c bins).isSome) with
  | none =>
    refine ⟨le_of_eq_of_le (hammingDist_self umi) (Nat.zero_le r), Or.inr ⟨rfl, ?_⟩⟩
    intro c hc
    have := List.find?_eq_none.mp hf c hc
    simpa using this
  | some c =>
    dsimp only
    constructor
    · exact candidateList_within umi L r c (List.mem_of_find?_eq_some hf)
    · exact Or.inl (by simpa using List.find?_some hf)

/-- Claim C9 counterexample.  Policy `None`, proactive: with an EMPTY bin
table every candidate ties at bin size 0, and `max_by_key` returns the last
element of the `HashSet` iteration order — an order that Rust randomizes per
process.  Two runs whose set iteration orders are reverses of one another
(the same candidate set) choose different canonical keys (`G` versus `A`)
for the same UMI and the same bin table, refuting determinism across runs. -/
theorem C9_counterexample :
    List.Perm exCandsC9 exCandsC9.reverse ∧
    chooseNoneKey [] exCandsC9 = some [71] ∧
    chooseNoneKey [] exCandsC9.reverse = some [65] ∧
    some ([71] : UMIVec) ≠ some [65] :=
  ⟨(List.reverse_perm exCandsC9).symm, by decide, by decide, by decide⟩

/-- Claim C9 (amended).  The canonical key chosen by the `--crm none`
proactive branch is a deterministic function of the incoming UMI, the bin
table, AND the iteration order of the candidate set: it is a candidate
maximizing the bin size (the last such in iteration order).  Because Rust's
`HashSet` iteration order varies from run to run, two runs may differ
whenever several candidates tie on bin size — and under policy `None` the
bin table is never populated, so ALL candidates always tie at size 0. -/
theorem C9_amended (bins : List (UMIVec × List FastqPair)) (cands : List UMIVec)
    (k : UMIVec) (h : chooseNoneKey bins cands = some k) :
    k ∈ cands ∧ ∀ x ∈ cands, binSize bins x ≤ binSize bins k :=
  maxByKeyLast_spec (binSize bins) cands k h

/-- Claim C9 witness: the amended theorem instantiated on the four
distance-1 candidates of the UMI `A` over the empty bin table. -/
theorem C9_amended_witness :
    ([71] : UMIVec) ∈ exCandsC9 ∧
      ∀ x ∈ exCandsC9, binSize [] x ≤ binSize [] [71] :=
  C9_amended [] exCandsC9 [71] (by decide)

/-- Claim C10 (code bug evidence).  Two panics inside per-pair processing of
structurally valid, classification-passing pairs: (i) under
`KeepLongestLeft` a third insertion under a key whose retained set was
emptied by the second insertion (see C1) hits
`set.iter().next().unwrap()` on an empty set; (ii) with `-u 4`, no primers,
and a valid 2-base forward read, UMI extraction
`read_pair.0.seq()[..umi_length]` is reached and slices out of bounds —
nothing guards the forward length when no forward primer is configured. -/
theorem C10_insertion_panics :
    (((insertPair (initHandler .keepLongestLeft) [65] exLong).bind
        (fun h1 => insertPair h1 [65] exShort)).bind
      (fun h2 => insertPair h2 [65] exShort)) = Option.none ∧
    processPair exParU4 (initState exParU4.crm) exShortRead = Option.none ∧
    recordValid exShortRead.1 = true ∧ recordValid exShortRead.2 = true ∧
    allN exShortRead.1.seq = false ∧ allN exShortRead.2.seq = false ∧
    exParU4.forwardPrimer = Option.none ∧ exParU4.umiLength = 4 := by decide

end Grebe
